import Mathlib

/-!
Verification of the cannoli tracer example (examples/tracer/src/main.rs):
symbol-table loading, nearest-below address resolution, event transcoding and
batch rendering. Machine integers (u64/u8) are modelled as Nat; panicking
paths (slice indexing, u64 subtraction underflow) are modelled with Option.
-/

namespace CannoliTracer

/-- struct SymOff: a raw address with its resolved symbol and offset. -/
structure SymOff where
  addr : Nat
  symbol : String
  offset : Nat
deriving DecidableEq, Repr

/-- Context.symbols: Vec<(u64, &str)> as a list of (address, name) pairs. -/
abbrev SymTable := List (Nat × String)

/-- The address at index i of the table (default only read out of range). -/
def key (t : SymTable) (i : Nat) : Nat := (t.getD i (0, "")).1

/-- Sorted ascending by address: consecutive entries obey address[i] <= address[i+1]. -/
def SortedTable (t : SymTable) : Prop := ∀ i < t.length - 1, key t i ≤ key t (i + 1)

instance (t : SymTable) : Decidable (SortedTable t) :=
  decidable_of_iff (∀ i < t.length - 1, key t i ≤ key t (i + 1)) Iff.rfl

/-- The loop of Rust slice::binary_search_by_key on the address component:
probe the middle of [l, r), narrow to the half that may hold k. `fuel` bounds
the number of iterations and is exact whenever `fuel >= r - l`; it only makes
the recursion structural. `inl pos` is Ok(pos) (exact match at pos), `inr pos`
is Err(pos) (insertion point pos). -/
def bsGo (t : SymTable) (k : Nat) : Nat → Nat → Nat → Sum Nat Nat
  | 0, l, _ => Sum.inr l
  | fuel + 1, l, r =>
    if l < r then
      if key t (l + (r - l) / 2) < k then bsGo t k fuel (l + (r - l) / 2 + 1) r
      else if k < key t (l + (r - l) / 2) then bsGo t k fuel l (l + (r - l) / 2)
      else Sum.inl (l + (r - l) / 2)
    else Sum.inr l

/-- symbols.binary_search_by_key(&addr, |x| x.0). -/
def binary_search_by_key (t : SymTable) (k : Nat) : Sum Nat Nat :=
  bsGo t k t.length 0 t.length

/-- Context::resolve: exact match gives offset 0; otherwise the entry just
below the insertion point if any, else the "<unknown>" sentinel with the raw
address as offset. -/
def resolve (t : SymTable) (addr : Nat) : SymOff :=
  match binary_search_by_key t addr with
  | Sum.inl pos => { addr := addr, symbol := (t.getD pos (0, "")).2, offset := 0 }
  | Sum.inr pos =>
    match (if 1 ≤ pos then some (pos - 1) else none).bind (fun x => t.get? x) with
    | some e => { addr := addr, symbol := e.2, offset := addr - e.1 }
    | none => { addr := addr, symbol := "<unknown>", offset := addr }

/-- u64 checked subtraction: none marks the underflow (panic) case. -/
def checkedSub (a b : Nat) : Option Nat := if b ≤ a then some (a - b) else none

/-- Context::resolve with the offset subtraction `addr - sa` modelled as a
checked u64 subtraction, so `none` marks the underflow-panic path.
resolve-totality shows this path is unreachable on sorted tables. -/
def resolveChecked (t : SymTable) (addr : Nat) : Option SymOff :=
  match binary_search_by_key t addr with
  | Sum.inl pos => some { addr := addr, symbol := (t.getD pos (0, "")).2, offset := 0 }
  | Sum.inr pos =>
    match (if 1 ≤ pos then some (pos - 1) else none).bind (fun x => t.get? x) with
    | some e =>
      (checkedSub addr e.1).map (fun off => { addr := addr, symbol := e.2, offset := off })
    | none => some { addr := addr, symbol := "<unknown>", offset := addr }

/-! ### Symbol-table loading (Tracer::init_tid) -/

/-- u64 range bound. -/
def u64Bound : Nat := 2 ^ 64

/-- Value of one hex digit, as u64::from_str_radix(_, 16) accepts them. -/
def hexDigitVal (c : Char) : Option Nat :=
  if '0' ≤ c ∧ c ≤ '9' then some (c.toNat - '0'.toNat)
  else if 'a' ≤ c ∧ c ≤ 'f' then some (c.toNat - 'a'.toNat + 10)
  else if 'A' ≤ c ∧ c ≤ 'F' then some (c.toNat - 'A'.toNat + 10)
  else none

/-- Fold hex digits into an accumulator with the u64 overflow check
(checked_mul/checked_add inside from_str_radix). -/
def hexAccum : List Char → Nat → Option Nat
  | [], acc => some acc
  | c :: rest, acc =>
    match hexDigitVal c with
    | none => none
    | some d => if acc * 16 + d < u64Bound then hexAccum rest (acc * 16 + d) else none

/-- u64::from_str_radix(s, 16): optional leading '+', then at least one hex
digit, result below 2^64. A leading '-' is not a hex digit, so it fails, as it
does for an unsigned target in Rust. -/
def from_str_radix16 (s : String) : Option Nat :=
  match s.data with
  | [] => none
  | '+' :: rest => if rest.isEmpty then none else hexAccum rest 0
  | cs => hexAccum cs 0

/-- str::split(' ') over chars: split at every space, keeping empty chunks. -/
def splitSpace : List Char → List (List Char)
  | [] => [[]]
  | c :: rest =>
    if c = ' ' then [] :: splitSpace rest
    else
      match splitSpace rest with
      | [] => [[c]]
      | h :: tl => (c :: h) :: tl

/-- line.splitn(3, ' '): at most three chunks, the third being the untouched
remainder of the line (so a symbol name may contain spaces). -/
def splitn3 (s : String) : List String :=
  match splitSpace s.data with
  | a :: b :: c :: rest => [String.mk a, String.mk b, String.mk (List.intercalate [' '] (c :: rest))]
  | parts => parts.map String.mk

/-- One iteration of the line loop in Tracer::init_tid. Outer none = the
chunk[2] indexing panics; some none = line silently skipped (hex parse
failed); some (some e) = entry e pushed. chunk[0] always exists. -/
def parseLine (line : String) : Option (Option (Nat × String)) :=
  match (splitn3 line)[0]? with
  | none => none
  | some c0 =>
    match from_str_radix16 c0 with
    | none => some none
    | some a =>
      match (splitn3 line)[2]? with
      | none => none
      | some sym => some (some (a, sym))

/-- One pass of the loading loop body over the accumulated entries. -/
def loadStep (acc : Option SymTable) (line : String) : Option SymTable :=
  acc.bind fun syms =>
    (parseLine line).map fun e =>
      match e with
      | none => syms
      | some entry => syms ++ [entry]

/-- The line loop of Tracer::init_tid over the lines of the symbol file (file
reading itself is abstracted: the input is the list of lines). none = a panic
aborted the load. -/
def loadEntries (lines : List String) : Option SymTable :=
  lines.foldl loadStep (some [])

/-- Comparison used by symbols.sort_by_key(|x| x.0). -/
def keyLE (a b : Nat × String) : Prop := a.1 ≤ b.1

instance : DecidableRel keyLE := fun a b => Nat.decLe a.1 b.1

instance : IsTotal (Nat × String) keyLE := ⟨fun a b => Nat.le_total a.1 b.1⟩

instance : IsTrans (Nat × String) keyLE := ⟨fun _ _ _ => Nat.le_trans⟩

/-- Vec::sort_by_key(|x| x.0): a stable sort by address. Insertion sort is
also stable, so it computes the same list. -/
def sortByKey (t : SymTable) : SymTable := List.insertionSort keyLE t

/-- The symbol-table construction of Tracer::init_tid: run the line loop,
then sort by address. -/
def init_tid (lines : List String) : Option SymTable :=
  (loadEntries lines).map sortByKey

/-! ### Formatting and rendering -/

/-- One lower-case hex digit (0..15). -/
def hexDigitChar (n : Nat) : Char :=
  if n < 10 then Char.ofNat (48 + n) else Char.ofNat (97 + (n - 10))

/-- Digit-emitting loop of {:x}; fuel only makes the recursion structural
(fuel >= number of digits is enough, and n itself always is). -/
def hexCharsAux : Nat → Nat → List Char → List Char
  | 0, _, acc => acc
  | fuel + 1, n, acc =>
    if n = 0 then acc else hexCharsAux fuel (n / 16) (hexDigitChar (n % 16) :: acc)

/-- The digits of {:x} (n = 0 renders as "0"). -/
def hexChars (n : Nat) : List Char :=
  if n = 0 then ['0'] else hexCharsAux n n []

/-- {:x} -/
def hexStr (n : Nat) : String := String.mk (hexChars n)

/-- {:#018x}: "0x", then the hex digits zero-padded on the left to width 16. -/
def hexPad16 (n : Nat) : String :=
  "0x" ++ String.mk (List.replicate (16 - (hexChars n).length) '0' ++ hexChars n)

/-- Display for SymOff: the +0x<hex> suffix appears exactly when offset != 0. -/
def SymOff.format (s : SymOff) : String :=
  if s.offset ≠ 0 then hexPad16 s.addr ++ " (" ++ s.symbol ++ "+0x" ++ hexStr s.offset ++ ")"
  else hexPad16 s.addr ++ " (" ++ s.symbol ++ ")"

/-- enum Operation. -/
inductive Operation where
  | exec (pc : SymOff)
  | read (pc : SymOff) (addr : SymOff) (val : Nat) (sz : Nat)
  | write (pc : SymOff) (addr : SymOff) (val : Nat) (sz : Nat)
deriving DecidableEq, Repr

/-- Tracer::exec: symbolize the pc and append one Exec record. -/
def Tracer.exec (tid : SymTable) (pc : Nat) (trace : List Operation) : List Operation :=
  trace ++ [Operation.exec (resolve tid pc)]

/-- Tracer::read: symbolize pc and addr and append one Read record. -/
def Tracer.read (tid : SymTable) (pc a val sz : Nat) (trace : List Operation) : List Operation :=
  trace ++ [Operation.read (resolve tid pc) (resolve tid a) val sz]

/-- Tracer::write: symbolize pc and addr and append one Write record. -/
def Tracer.write (tid : SymTable) (pc a val sz : Nat) (trace : List Operation) : List Operation :=
  trace ++ [Operation.write (resolve tid pc) (resolve tid a) val sz]

/-- Tracer::mmap: the batch is returned unchanged; the second component is
the list of stderr diagnostic lines emitted (one when path is non-empty). -/
def Tracer.mmap (base _len : Nat) (_anon _rd _wr ex : Bool) (path : String) (off : Nat)
    (trace : List Operation) : List Operation × List String :=
  (trace,
   if 0 < path.length then
     ["mmap: path=" ++ path ++ " base=0x" ++ hexStr base ++ " offset=0x" ++ hexStr off ++
       " exec=" ++ (if ex then "true" else "false")]
   else [])

/-- The line printed for one operation by Tracer::trace. -/
def renderOp (op : Operation) : String :=
  match op with
  | Operation.exec pc => "\x1b[0;34mEXEC\x1b[0m   @ " ++ SymOff.format pc
  | Operation.read pc a val sz =>
      "\x1b[0;32mREAD" ++ toString sz ++ "\x1b[0m  @ " ++ SymOff.format pc ++ " | " ++
        SymOff.format a ++ " =0x" ++ hexStr val
  | Operation.write pc a val sz =>
      "\x1b[0;31mWRITE" ++ toString sz ++ "\x1b[0m @ " ++ SymOff.format pc ++ " | " ++
        SymOff.format a ++ " =0x" ++ hexStr val

/-- Tracer::trace: one stdout line per operation, in batch order. -/
def Tracer.trace (ops : List Operation) : List String := ops.map renderOp

/-! ### Lemmas about the binary search and resolve -/

/-- Consecutive sortedness gives monotone keys. -/
theorem sorted_mono {t : SymTable} (hs : SortedTable t) :
    ∀ j i, i ≤ j → j < t.length → key t i ≤ key t j := by
  intro j
  induction j with
  | zero =>
    intro i h1 h2
    have hEq : i = 0 := by omega
    subst hEq
    exact le_rfl
  | succ n ih =>
    intro i h1 h2
    by_cases hin : i = n + 1
    · subst hin; exact le_rfl
    · exact le_trans (ih i (by omega) (by omega)) (hs n (by omega))

/-- An Ok result of the search loop lies in [l, r) and holds exactly the key. -/
theorem bsGo_inl {t : SymTable} {k : Nat} :
    ∀ fuel {l r p : Nat}, bsGo t k fuel l r = Sum.inl p →
      l ≤ p ∧ p < r ∧ key t p = k := by
  intro fuel
  induction fuel with
  | zero => intro l r p h; exact absurd h (by simp [bsGo])
  | succ n ih =>
    intro l r p h
    simp only [bsGo] at h
    split_ifs at h with hlr h1 h2
    · obtain ⟨a, b, c⟩ := ih h
      exact ⟨by omega, b, c⟩
    · obtain ⟨a, b, c⟩ := ih h
      exact ⟨a, by omega, c⟩
    · cases h
      exact ⟨by omega, by omega, by omega⟩

/-- An Err result of the search loop on a sorted table: with enough fuel and
bracketing invariants, the insertion point separates keys below k from keys
above k. -/
theorem bsGo_inr {t : SymTable} {k : Nat} (hs : SortedTable t) :
    ∀ fuel {l r p : Nat}, r - l ≤ fuel → l ≤ r → r ≤ t.length →
      (∀ i, i < l → key t i < k) →
      (∀ i, r ≤ i → i < t.length → k < key t i) →
      bsGo t k fuel l r = Sum.inr p →
      l ≤ p ∧ p ≤ r ∧ (∀ i, i < p → key t i < k) ∧
        (∀ i, p ≤ i → i < t.length → k < key t i) := by
  intro fuel
  induction fuel with
  | zero =>
    intro l r p hfuel hlr hrlen hbelow habove h
    simp only [bsGo] at h
    cases h
    have hEq : l = r := by omega
    subst hEq
    exact ⟨le_rfl, le_rfl, hbelow, habove⟩
  | succ n ih =>
    intro l r p hfuel hlr hrlen hbelow habove h
    simp only [bsGo] at h
    split_ifs at h with hcond h1 h2
    · have hmidlen : l + (r - l) / 2 < t.length := by omega
      have hb : ∀ i, i < l + (r - l) / 2 + 1 → key t i < k := by
        intro i hi
        have hmono : key t i ≤ key t (l + (r - l) / 2) := sorted_mono hs _ i (by omega) hmidlen
        omega
      obtain ⟨a, b, c, d⟩ := ih (by omega) (by omega) hrlen hb habove h
      exact ⟨by omega, b, c, d⟩
    · have ha : ∀ i, l + (r - l) / 2 ≤ i → i < t.length → k < key t i := by
        intro i hi hil
        have hmono : key t (l + (r - l) / 2) ≤ key t i := sorted_mono hs i _ hi hil
        omega
      obtain ⟨a, b, c, d⟩ := ih (by omega) (by omega) (by omega) hbelow ha h
      exact ⟨a, by omega, c, d⟩
    · cases h
      have hEq : l = r := by omega
      subst hEq
      exact ⟨le_rfl, le_rfl, hbelow, habove⟩

/-- Ok result of the full search: in-range position carrying the key. -/
theorem binary_search_inl {t : SymTable} {k p : Nat}
    (h : binary_search_by_key t k = Sum.inl p) : p < t.length ∧ key t p = k :=
  ⟨(bsGo_inl t.length h).2.1, (bsGo_inl t.length h).2.2⟩

/-- Err result of the full search on a sorted table. -/
theorem binary_search_inr {t : SymTable} {k p : Nat} (hs : SortedTable t)
    (h : binary_search_by_key t k = Sum.inr p) :
    p ≤ t.length ∧ (∀ i, i < p → key t i < k) ∧
      (∀ i, p ≤ i → i < t.length → k < key t i) := by
  obtain ⟨a, b, c, d⟩ :=
    bsGo_inr hs t.length le_rfl (by omega) le_rfl
      (by intro i hi; omega) (by intro i h1 h2; omega) h
  exact ⟨b, c, d⟩

/-- If every entry of the table has key above k, the search lands at
insertion point 0 (no sortedness needed). -/
theorem bsGo_allAbove {t : SymTable} {k : Nat} (h : ∀ i, i < t.length → k < key t i) :
    ∀ fuel r, r ≤ t.length → bsGo t k fuel 0 r = Sum.inr 0 := by
  intro fuel
  induction fuel with
  | zero => intro r hr; simp [bsGo]
  | succ n ih =>
    intro r hr
    simp only [bsGo]
    by_cases h0 : 0 < r
    · rw [if_pos h0]
      have hk : k < key t (0 + (r - 0) / 2) := h _ (by omega)
      rw [if_neg (by omega), if_pos hk]
      exact ih _ (by omega)
    · rw [if_neg h0]

/-- resolve on an exact search hit. -/
theorem resolve_eq_of_inl {t : SymTable} {X pos : Nat}
    (h : binary_search_by_key t X = Sum.inl pos) :
    resolve t X = { addr := X, symbol := (t.getD pos (0, "")).2, offset := 0 } := by
  simp only [resolve, h]

/-- resolve on a miss with insertion point 0: the unknown sentinel. -/
theorem resolve_eq_of_inr_zero {t : SymTable} {X : Nat}
    (h : binary_search_by_key t X = Sum.inr 0) :
    resolve t X = { addr := X, symbol := "<unknown>", offset := X } := by
  simp only [resolve, h]
  rfl

/-- resolve on a miss with a positive in-range insertion point: the entry
just below. -/
theorem resolve_eq_of_inr_pos {t : SymTable} {X pos : Nat}
    (h : binary_search_by_key t X = Sum.inr pos) (hp : 1 ≤ pos)
    (hlen : pos - 1 < t.length) :
    resolve t X = { addr := X, symbol := (t.get ⟨pos - 1, hlen⟩).2,
                    offset := X - (t.get ⟨pos - 1, hlen⟩).1 } := by
  simp only [resolve, h, if_pos hp, Option.some_bind, List.get?_eq_get hlen]

/-- getD agrees with get on in-range indices. -/
theorem getD_in_range {t : SymTable} {i : Nat} (h : i < t.length) :
    t.getD i (0, "") = t.get ⟨i, h⟩ := by
  rw [List.getD_eq_getElem _ _ h, List.get_eq_getElem]

/-- A member of the table sits at some index. -/
theorem mem_index {t : SymTable} {e : Nat × String} (h : e ∈ t) :
    ∃ j, ∃ hj : j < t.length, t.get ⟨j, hj⟩ = e := by
  obtain ⟨⟨j, hj⟩, hget⟩ := List.get_of_mem h
  exact ⟨j, hj, hget⟩

/-! ### Claims about the resolver -/

/-- C3: for every symbol table (including the empty one) and every address X
strictly below every entry's address, resolve returns raw_address X, symbol
"<unknown>" and offset X. -/
theorem c3_resolve_below_range (t : SymTable) (X : Nat)
    (h : ∀ i, i < t.length → X < key t i) :
    resolve t X = { addr := X, symbol := "<unknown>", offset := X } :=
  resolve_eq_of_inr_zero (bsGo_allAbove h t.length t.length le_rfl)

/-- Witness for C3: table [(5, "a")] at address 3. -/
theorem c3_witness :
    (∀ i, i < ([(5, "a")] : SymTable).length → 3 < key [(5, "a")] i) ∧
      resolve [(5, "a")] 3 = { addr := 3, symbol := "<unknown>", offset := 3 } :=
  ⟨by decide, c3_resolve_below_range [(5, "a")] 3 (by decide)⟩

/-- C1: on a sorted table holding at least one entry at or below X, resolve
returns raw address X, the name of a key-maximal entry at or below X, and the
distance from that entry; when X is above every address that entry is the
last one. -/
theorem c1_resolve_nearest_below (t : SymTable) (X : Nat) (hs : SortedTable t)
    (hex : ∃ j, j < t.length ∧ key t j ≤ X) :
    (resolve t X).addr = X ∧
    (∃ i, i < t.length ∧ key t i ≤ X ∧
      (∀ j, j < t.length → key t j ≤ X → key t j ≤ key t i) ∧
      (resolve t X).symbol = (t.getD i (0, "")).2 ∧
      (resolve t X).offset = X - key t i) ∧
    ((∀ j, j < t.length → key t j < X) →
      (resolve t X).symbol = (t.getD (t.length - 1) (0, "")).2 ∧
      (resolve t X).offset = X - key t (t.length - 1)) := by
  obtain ⟨j0, hj0, hj0le⟩ := hex
  cases hsearch : binary_search_by_key t X with
  | inl pos =>
    obtain ⟨hpos, hkey⟩ := binary_search_inl hsearch
    rw [resolve_eq_of_inl hsearch]
    refine ⟨rfl, ⟨pos, hpos, by omega, ?_, rfl,
      show (0 : Nat) = X - key t pos by omega⟩, ?_⟩
    · intro j hj hjle
      omega
    · intro hall
      exact absurd (hall pos hpos) (by omega)
  | inr p =>
    obtain ⟨hple, hbelow, habove⟩ := binary_search_inr hs hsearch
    have hp1 : 1 ≤ p := by
      by_contra hcon
      have hzero : p = 0 := by omega
      subst hzero
      exact absurd (habove j0 (by omega) hj0) (by omega)
    have hlen : p - 1 < t.length := by omega
    rw [resolve_eq_of_inr_pos hsearch hp1 hlen]
    have hgetkey : (t.get ⟨p - 1, hlen⟩).1 = key t (p - 1) := by
      rw [key, getD_in_range hlen]
    have hb := hbelow (p - 1) (by omega)
    refine ⟨rfl, ⟨p - 1, hlen, by omega, ?_, ?_,
      show X - (t.get ⟨p - 1, hlen⟩).1 = X - key t (p - 1) by omega⟩, ?_⟩
    · intro j hj hjle
      by_cases hjp : j < p
      · exact sorted_mono hs (p - 1) j (by omega) hlen
      · exact absurd (habove j (by omega) hj) (by omega)
    · show (t.get ⟨p - 1, hlen⟩).2 = (t.getD (p - 1) (0, "")).2
      rw [getD_in_range hlen]
    · intro hall
      have hpl : p = t.length := by
        by_contra hcon
        have hplt : p < t.length := by omega
        have hk := hall p hplt
        exact absurd (habove p le_rfl hplt) (by omega)
      subst hpl
      refine ⟨?_, show X - (t.get ⟨t.length - 1, hlen⟩).1 = X - key t (t.length - 1) by omega⟩
      show (t.get ⟨t.length - 1, hlen⟩).2 = (t.getD (t.length - 1) (0, "")).2
      rw [getD_in_range hlen]

/-- Witness for C1: table [(2, "a"), (4, "b"), (8, "c")] at address 7. -/
theorem c1_witness :
    SortedTable [(2, "a"), (4, "b"), (8, "c")] ∧
      (∃ j, j < ([(2, "a"), (4, "b"), (8, "c")] : SymTable).length ∧
        key [(2, "a"), (4, "b"), (8, "c")] j ≤ 7) ∧
      ((resolve [(2, "a"), (4, "b"), (8, "c")] 7).addr = 7 ∧
        (∃ i, i < ([(2, "a"), (4, "b"), (8, "c")] : SymTable).length ∧
          key [(2, "a"), (4, "b"), (8, "c")] i ≤ 7 ∧
          (∀ j, j < ([(2, "a"), (4, "b"), (8, "c")] : SymTable).length →
            key [(2, "a"), (4, "b"), (8, "c")] j ≤ 7 →
            key [(2, "a"), (4, "b"), (8, "c")] j ≤ key [(2, "a"), (4, "b"), (8, "c")] i) ∧
          (resolve [(2, "a"), (4, "b"), (8, "c")] 7).symbol =
            (([(2, "a"), (4, "b"), (8, "c")] : SymTable).getD i (0, "")).2 ∧
          (resolve [(2, "a"), (4, "b"), (8, "c")] 7).offset =
            7 - key [(2, "a"), (4, "b"), (8, "c")] i) ∧
        ((∀ j, j < ([(2, "a"), (4, "b"), (8, "c")] : SymTable).length →
            key [(2, "a"), (4, "b"), (8, "c")] j < 7) →
          (resolve [(2, "a"), (4, "b"), (8, "c")] 7).symbol =
            (([(2, "a"), (4, "b"), (8, "c")] : SymTable).getD
              (([(2, "a"), (4, "b"), (8, "c")] : SymTable).length - 1) (0, "")).2 ∧
          (resolve [(2, "a"), (4, "b"), (8, "c")] 7).offset =
            7 - key [(2, "a"), (4, "b"), (8, "c")]
              (([(2, "a"), (4, "b"), (8, "c")] : SymTable).length - 1))) :=
  ⟨by decide, ⟨0, by decide, by decide⟩,
    c1_resolve_nearest_below [(2, "a"), (4, "b"), (8, "c")] 7 (by decide)
      ⟨0, by decide, by decide⟩⟩

/-- C4 counterexample: the sorted table [(5, "f"), (5, "g")] contains
(5, "f"), yet resolving address 5 returns the name "g". -/
theorem c4_counterexample :
    SortedTable [(5, "f"), (5, "g")] ∧
      (5, "f") ∈ ([(5, "f"), (5, "g")] : SymTable) ∧
      resolve [(5, "f"), (5, "g")] 5 ≠ { addr := 5, symbol := "f", offset := 0 } := by
  refine ⟨by decide, by decide, by decide⟩

/-- C4 amended: on a sorted table containing (A, nm) in which every entry at
address A carries the name nm (in particular when A is not duplicated),
resolve at A returns raw address A, name nm and offset 0. -/
theorem c4_exact_match (t : SymTable) (A : Nat) (nm : String) (hs : SortedTable t)
    (hmem : (A, nm) ∈ t)
    (huniq : ∀ i, i < t.length → key t i = A → (t.getD i (0, "")).2 = nm) :
    resolve t A = { addr := A, symbol := nm, offset := 0 } := by
  cases hsearch : binary_search_by_key t A with
  | inl pos =>
    obtain ⟨hpos, hkey⟩ := binary_search_inl hsearch
    rw [resolve_eq_of_inl hsearch, huniq pos hpos hkey]
  | inr p =>
    obtain ⟨hple, hbelow, habove⟩ := binary_search_inr hs hsearch
    obtain ⟨j, hj, hget⟩ := mem_index hmem
    have hjkey : key t j = A := by
      rw [key, getD_in_range hj, hget]
    by_cases hjp : j < p
    · exact absurd (hbelow j hjp) (by omega)
    · exact absurd (habove j (by omega) hj) (by omega)

/-- Witness for amended C4: table [(3, "a"), (5, "f")] at address 5. -/
theorem c4_witness :
    SortedTable [(3, "a"), (5, "f")] ∧
      (5, "f") ∈ ([(3, "a"), (5, "f")] : SymTable) ∧
      (∀ i, i < ([(3, "a"), (5, "f")] : SymTable).length →
        key [(3, "a"), (5, "f")] i = 5 →
        (([(3, "a"), (5, "f")] : SymTable).getD i (0, "")).2 = "f") ∧
      resolve [(3, "a"), (5, "f")] 5 = { addr := 5, symbol := "f", offset := 0 } :=
  ⟨by decide, by decide, by decide,
    c4_exact_match [(3, "a"), (5, "f")] 5 "f" (by decide) (by decide) (by decide)⟩

/-- C5 counterexample: on the sorted table [(5, "a")], address 0 resolves
with offset 0, yet no table entry has the resolved raw address 0. -/
theorem c5_counterexample :
    (resolve [(5, "a")] 0).offset = 0 ∧
      ∀ i, i < ([(5, "a")] : SymTable).length →
        key [(5, "a")] i ≠ (resolve [(5, "a")] 0).addr := by
  refine ⟨by decide, by decide⟩

/-- C5 amended: on a sorted table, offset 0 implies an exact symbol match,
except when the raw address is 0 and the "<unknown>" sentinel is returned. -/
theorem c5_offset_zero (t : SymTable) (addr : Nat) (hs : SortedTable t)
    (h0 : (resolve t addr).offset = 0) :
    (∃ i, i < t.length ∧ key t i = addr) ∨
      (addr = 0 ∧ (resolve t addr).symbol = "<unknown>") := by
  cases hsearch : binary_search_by_key t addr with
  | inl pos =>
    obtain ⟨hpos, hkey⟩ := binary_search_inl hsearch
    exact Or.inl ⟨pos, hpos, hkey⟩
  | inr p =>
    obtain ⟨hple, hbelow, habove⟩ := binary_search_inr hs hsearch
    by_cases hp1 : 1 ≤ p
    · have hlen : p - 1 < t.length := by omega
      have hb := hbelow (p - 1) (by omega)
      have hgetkey : (t.get ⟨p - 1, hlen⟩).1 = key t (p - 1) := by
        rw [key, getD_in_range hlen]
      have hoff : (resolve t addr).offset = addr - (t.get ⟨p - 1, hlen⟩).1 := by
        rw [resolve_eq_of_inr_pos hsearch hp1 hlen]
      omega
    · have hp0 : p = 0 := by omega
      subst hp0
      have hoff : (resolve t addr).offset = addr := by
        rw [resolve_eq_of_inr_zero hsearch]
      have hsym : (resolve t addr).symbol = "<unknown>" := by
        rw [resolve_eq_of_inr_zero hsearch]
      exact Or.inr ⟨by omega, hsym⟩

/-- Witness for amended C5: table [(5, "a")] at address 0. -/
theorem c5_witness :
    SortedTable [(5, "a")] ∧ (resolve [(5, "a")] 0).offset = 0 ∧
      ((∃ i, i < ([(5, "a")] : SymTable).length ∧ key [(5, "a")] i = 0) ∨
        (0 = 0 ∧ (resolve [(5, "a")] 0).symbol = "<unknown>")) :=
  ⟨by decide, by decide, c5_offset_zero [(5, "a")] 0 (by decide) (by decide)⟩

/-- C7: on a sorted table resolve is total over all addresses with no panic
path: the checked-subtraction variant always returns exactly resolve's
result (the offset subtraction never underflows) and the raw address is
preserved. -/
theorem c7_resolve_total (t : SymTable) (addr : Nat) (hs : SortedTable t) :
    resolveChecked t addr = some (resolve t addr) ∧ (resolve t addr).addr = addr := by
  cases hsearch : binary_search_by_key t addr with
  | inl pos =>
    constructor
    · simp only [resolveChecked, resolve, hsearch]
    · rw [resolve_eq_of_inl hsearch]
  | inr p =>
    by_cases hp1 : 1 ≤ p
    · obtain ⟨hple, hbelow, habove⟩ := binary_search_inr hs hsearch
      have hlen : p - 1 < t.length := by omega
      have hb := hbelow (p - 1) (by omega)
      have hgetkey : (t.get ⟨p - 1, hlen⟩).1 = key t (p - 1) := by
        rw [key, getD_in_range hlen]
      constructor
      · simp only [resolveChecked, resolve, hsearch, if_pos hp1, Option.some_bind,
          List.get?_eq_get hlen]
        rw [checkedSub, if_pos (show (t.get ⟨p - 1, hlen⟩).1 ≤ addr by omega)]
        rfl
      · rw [resolve_eq_of_inr_pos hsearch hp1 hlen]
    · have hp0 : p = 0 := by omega
      subst hp0
      constructor
      · simp only [resolveChecked, resolve, hsearch]
        rfl
      · rw [resolve_eq_of_inr_zero hsearch]

/-- Witness for C7: table [(2, "a"), (4, "b")] at address 7. -/
theorem c7_witness :
    SortedTable [(2, "a"), (4, "b")] ∧
      resolveChecked [(2, "a"), (4, "b")] 7 = some (resolve [(2, "a"), (4, "b")] 7) ∧
      (resolve [(2, "a"), (4, "b")] 7).addr = 7 :=
  ⟨by decide, c7_resolve_total [(2, "a"), (4, "b")] 7 (by decide)⟩

/-- C10: resolve is deterministic (a pure function of table and address),
and at a (possibly duplicated) address present in a sorted table it returns
the name of one of the entries carrying exactly that address, with offset 0. -/
theorem c10_resolve_deterministic :
    (∀ (t : SymTable) (addr : Nat), resolve t addr = resolve t addr) ∧
      (∀ (t : SymTable) (addr : Nat), SortedTable t →
        (∃ j, j < t.length ∧ key t j = addr) →
        ∃ i, i < t.length ∧ key t i = addr ∧
          (resolve t addr).symbol = (t.getD i (0, "")).2 ∧
          (resolve t addr).offset = 0) := by
  refine ⟨fun t addr => rfl, fun t addr hs hocc => ?_⟩
  cases hsearch : binary_search_by_key t addr with
  | inl pos =>
    obtain ⟨hpos, hkey⟩ := binary_search_inl hsearch
    exact ⟨pos, hpos, hkey, by rw [resolve_eq_of_inl hsearch],
      by rw [resolve_eq_of_inl hsearch]⟩
  | inr p =>
    obtain ⟨j, hj, hjkey⟩ := hocc
    obtain ⟨hple, hbelow, habove⟩ := binary_search_inr hs hsearch
    by_cases hjp : j < p
    · exact absurd (hbelow j hjp) (by omega)
    · exact absurd (habove j (by omega) hj) (by omega)

/-! ### Claims about the loader -/

/-- A sorted-by-keyLE list satisfies the consecutive index form. -/
theorem sortedTable_of_sorted {l : SymTable} (h : List.Sorted keyLE l) : SortedTable l := by
  intro i hi
  have h1 : i < l.length := by omega
  have h2 : i + 1 < l.length := by omega
  have hrel := h.rel_get_of_lt (a := ⟨i, h1⟩) (b := ⟨i + 1, h2⟩) (Fin.mk_lt_mk.mpr (by omega))
  rw [key, key, getD_in_range h1, getD_in_range h2]
  exact hrel

/-- C6: whenever the loader succeeds, the resulting table is sorted
ascending by address: consecutive entries satisfy address[i] <= address[i+1]. -/
theorem c6_load_sorted (lines : List String) (syms : SymTable)
    (h : init_tid lines = some syms) : SortedTable syms := by
  unfold init_tid at h
  cases hle : loadEntries lines with
  | none => rw [hle] at h; simp at h
  | some es =>
    rw [hle] at h
    injection h with h2
    rw [← h2]
    exact sortedTable_of_sorted (List.sorted_insertionSort keyLE es)

/-- Witness for C6: two out-of-order lines load into a sorted table. -/
theorem c6_witness :
    init_tid ["10 T b", "5 T a"] = some [(5, "a"), (16, "b")] ∧
      SortedTable [(5, "a"), (16, "b")] :=
  ⟨by decide, c6_load_sorted ["10 T b", "5 T a"] [(5, "a"), (16, "b")] (by decide)⟩

/-- splitSpace always produces at least one chunk. -/
theorem splitSpace_ne_nil : ∀ cs : List Char, splitSpace cs ≠ [] := by
  intro cs
  cases cs with
  | nil => simp [splitSpace]
  | cons c rest =>
    by_cases hc : c = ' '
    · simp [splitSpace, hc]
    · simp only [splitSpace, if_neg hc]
      cases hsp : splitSpace rest <;> simp

/-- splitn3 always produces at least one chunk, so chunk[0] never panics. -/
theorem splitn3_ne_nil (s : String) : splitn3 s ≠ [] := by
  unfold splitn3
  cases hsp : splitSpace s.data with
  | nil => exact absurd hsp (splitSpace_ne_nil _)
  | cons a tl =>
    cases tl with
    | nil => simp
    | cons b tl2 => cases tl2 <;> simp

/-- The first chunk of a line after splitn(3, ' '). -/
def firstChunk (line : String) : String := (splitn3 line).getD 0 ""

/-- Head indexing of a non-empty list. -/
theorem getElem_zero_of_ne_nil {l : List String} (h : l ≠ []) :
    l[0]? = some (l.getD 0 "") := by
  cases l with
  | nil => exact absurd rfl h
  | cons a tl => simp

/-- A line whose first field fails the hex parse is skipped. -/
theorem parseLine_skip {line : String} (h : from_str_radix16 (firstChunk line) = none) :
    parseLine line = some none := by
  unfold firstChunk at h
  simp only [parseLine, getElem_zero_of_ne_nil (splitn3_ne_nil line)]
  rw [h]

/-- A skipped line leaves the accumulated entries unchanged. -/
theorem loadStep_skip (acc : Option SymTable) {line : String}
    (h : parseLine line = some none) : loadStep acc line = acc := by
  cases acc with
  | none => rfl
  | some syms =>
    unfold loadStep
    rw [h]
    rfl

/-- C2 counterexample: the line "10 T" is malformed (valid hex first field
but no third field), and instead of being skipped it makes the whole load
panic: the loader aborts rather than ignoring it. -/
theorem c2_counterexample :
    init_tid ["0 T main", "10 T", "20 T foo"] = none := by decide

/-- C2 amended: a line whose first field does not parse as unsigned 64-bit
hex is silently skipped and loading continues as if the line were absent;
but a line whose first field parses while lacking a third field panics
(aborts the load), as the counterexample shows. -/
theorem c2_bad_hex_skipped (pre post : List String) (line : String)
    (h : from_str_radix16 (firstChunk line) = none) :
    init_tid (pre ++ line :: post) = init_tid (pre ++ post) := by
  unfold init_tid
  congr 1
  unfold loadEntries
  rw [List.foldl_append, List.foldl_append, List.foldl_cons,
    loadStep_skip _ (parseLine_skip h)]

/-- Witness for amended C2: the bad-hex line "zz T x" is dropped. -/
theorem c2_witness :
    from_str_radix16 (firstChunk "zz T x") = none ∧
      init_tid (["0 T a"] ++ "zz T x" :: ["20 T c"]) = init_tid (["0 T a"] ++ ["20 T c"]) :=
  ⟨by decide, c2_bad_hex_skipped ["0 T a"] ["20 T c"] "zz T x" (by decide)⟩

/-- Witness for C10: duplicate address 5 in [(5, "f"), (5, "g")]. -/
theorem c10_witness :
    resolve [(5, "f"), (5, "g")] 5 = resolve [(5, "f"), (5, "g")] 5 ∧
      SortedTable [(5, "f"), (5, "g")] ∧
      (∃ i, i < ([(5, "f"), (5, "g")] : SymTable).length ∧
        key [(5, "f"), (5, "g")] i = 5 ∧
        (resolve [(5, "f"), (5, "g")] 5).symbol =
          (([(5, "f"), (5, "g")] : SymTable).getD i (0, "")).2 ∧
        (resolve [(5, "f"), (5, "g")] 5).offset = 0) :=
  ⟨c10_resolve_deterministic.1 [(5, "f"), (5, "g")] 5, by decide,
    c10_resolve_deterministic.2 [(5, "f"), (5, "g")] 5 (by decide)
      ⟨0, by decide, by decide⟩⟩

/-! ### Claims about the transcoder and renderer -/

/-- A string is non-empty exactly when its length is positive. -/
theorem string_ne_empty_iff {s : String} : s ≠ "" ↔ 0 < s.length := by
  cases s with
  | mk d =>
    cases d with
    | nil => simp [String.length]
    | cons c cs => simp [String.ext_iff, String.length]

/-- C8: exec/read/write each append exactly one operation of their kind to
the batch, with pc (and addr) resolved and value/size passed through; mmap
never appends, and emits its diagnostic line exactly when path is
non-empty. -/
theorem c8_callbacks (t : SymTable) (pc a val sz base len off : Nat)
    (anon rd wr ex : Bool) (path : String) (trace : List Operation) :
    Tracer.exec t pc trace = trace ++ [Operation.exec (resolve t pc)] ∧
    (Tracer.exec t pc trace).length = trace.length + 1 ∧
    Tracer.read t pc a val sz trace
      = trace ++ [Operation.read (resolve t pc) (resolve t a) val sz] ∧
    (Tracer.read t pc a val sz trace).length = trace.length + 1 ∧
    Tracer.write t pc a val sz trace
      = trace ++ [Operation.write (resolve t pc) (resolve t a) val sz] ∧
    (Tracer.write t pc a val sz trace).length = trace.length + 1 ∧
    (Tracer.mmap base len anon rd wr ex path off trace).1 = trace ∧
    ((Tracer.mmap base len anon rd wr ex path off trace).2 ≠ [] ↔ path ≠ "") := by
  refine ⟨rfl, by simp [Tracer.exec], rfl, by simp [Tracer.read], rfl,
    by simp [Tracer.write], rfl, ?_⟩
  unfold Tracer.mmap
  by_cases hp : 0 < path.length
  · simp only [if_pos hp]
    simp [string_ne_empty_iff, hp]
  · simp only [if_neg hp]
    simp only [ne_eq, not_true_eq_false, false_iff, string_ne_empty_iff]
    omega

/-- Every hex digit emitted by the formatting loop is one of 0-9a-f. -/
def IsHexDigitChar (c : Char) : Prop := (hexDigitVal c).isSome = true

instance (c : Char) : Decidable (IsHexDigitChar c) := by
  unfold IsHexDigitChar
  infer_instance

/-- hexDigitChar emits hex digits. -/
theorem hexDigitChar_isHex : ∀ n, n < 16 → IsHexDigitChar (hexDigitChar n) := by decide

/-- The digit loop appends at most k digits when n < 16^k. -/
theorem hexCharsAux_length (fuel : Nat) :
    ∀ n acc k, n < 16 ^ k → (hexCharsAux fuel n acc).length ≤ acc.length + k := by
  induction fuel with
  | zero =>
    intro n acc k h
    simp only [hexCharsAux]
    omega
  | succ m ih =>
    intro n acc k h
    simp only [hexCharsAux]
    by_cases h0 : n = 0
    · rw [if_pos h0]; omega
    · rw [if_neg h0]
      have hk : k ≠ 0 := by
        intro hk0
        subst hk0
        simp at h
        omega
      have hsplit : (16 : Nat) ^ k = 16 ^ (k - 1) * 16 := by
        conv_lhs => rw [show k = (k - 1) + 1 by omega]
        rw [pow_succ]
      have hdiv : n / 16 < 16 ^ (k - 1) := by
        rw [Nat.div_lt_iff_lt_mul (by norm_num)]
        omega
      have hrec := ih (n / 16) (hexDigitChar (n % 16) :: acc) (k - 1) hdiv
      simp only [List.length_cons] at hrec
      omega

/-- Every character the digit loop emits is a hex digit or came from acc. -/
theorem hexCharsAux_mem (fuel : Nat) :
    ∀ n acc c, c ∈ hexCharsAux fuel n acc → c ∈ acc ∨ IsHexDigitChar c := by
  induction fuel with
  | zero =>
    intro n acc c h
    exact Or.inl h
  | succ m ih =>
    intro n acc c h
    simp only [hexCharsAux] at h
    by_cases h0 : n = 0
    · rw [if_pos h0] at h
      exact Or.inl h
    · rw [if_neg h0] at h
      rcases ih _ _ _ h with hmem | hhex
      · cases hmem with
        | head => exact Or.inr (hexDigitChar_isHex _ (Nat.mod_lt _ (by norm_num)))
        | tail _ h2 => exact Or.inl h2
      · exact Or.inr hhex

/-- A u64 value has at most 16 hex digits. -/
theorem hexChars_length {n : Nat} (h : n < u64Bound) : (hexChars n).length ≤ 16 := by
  unfold hexChars
  by_cases h0 : n = 0
  · rw [if_pos h0]; simp
  · rw [if_neg h0]
    have hbound : n < 16 ^ 16 := by
      have : u64Bound = 16 ^ 16 := by norm_num [u64Bound]
      omega
    simpa using hexCharsAux_length n n [] 16 hbound

/-- Every character of a hex rendering is a hex digit. -/
theorem hexChars_isHex {n : Nat} : ∀ c ∈ hexChars n, IsHexDigitChar c := by
  intro c hc
  unfold hexChars at hc
  by_cases h0 : n = 0
  · rw [if_pos h0] at hc
    simp at hc
    subst hc
    decide
  · rw [if_neg h0] at hc
    rcases hexCharsAux_mem n n [] c hc with hmem | hhex
    · exact absurd hmem (List.not_mem_nil c)
    · exact hhex

/-- The address rendering of SymOff.format, characterized: 0x followed by
exactly 16 hex digits, then the symbol in parentheses, with a +0x<hex>
suffix exactly when the offset is non-zero. -/
theorem format_spec (s : SymOff) (h : s.addr < u64Bound) :
    ∃ ds : List Char, ds.length = 16 ∧ (∀ c ∈ ds, IsHexDigitChar c) ∧
      SymOff.format s = "0x" ++ String.mk ds ++ " (" ++ s.symbol ++
        (if s.offset ≠ 0 then "+0x" ++ hexStr s.offset ++ ")" else ")") := by
  have hlen : (hexChars s.addr).length ≤ 16 := hexChars_length h
  refine ⟨List.replicate (16 - (hexChars s.addr).length) '0' ++ hexChars s.addr, ?_, ?_, ?_⟩
  · simp only [List.length_append, List.length_replicate]
    omega
  · intro c hc
    rcases List.mem_append.mp hc with hrep | hhex
    · have hc0 : c = '0' := List.eq_of_mem_replicate hrep
      subst hc0
      decide
    · exact hexChars_isHex c hhex
  · unfold SymOff.format hexPad16
    by_cases hoff : s.offset ≠ 0
    · rw [if_pos hoff, if_pos hoff]
      simp [String.append_assoc]
    · rw [if_neg hoff, if_neg hoff]

/-- C9: the renderer emits exactly one line per operation in batch order;
each line carries its kind label (EXEC, READ<size>, WRITE<size>); and each
resolved address renders as 0x plus 16 zero-padded hex digits, the symbol in
parentheses, and a +0x<hex> offset suffix exactly when the offset is
non-zero. -/
theorem c9_render :
    (∀ ops : List Operation, (Tracer.trace ops).length = ops.length ∧
      ∀ i : Nat, (Tracer.trace ops)[i]? = (ops[i]?).map renderOp) ∧
    (∀ pc, renderOp (Operation.exec pc)
        = "\x1b[0;34mEXEC\x1b[0m   @ " ++ SymOff.format pc) ∧
    (∀ pc a val sz, renderOp (Operation.read pc a val sz)
        = "\x1b[0;32mREAD" ++ toString sz ++ "\x1b[0m  @ " ++ SymOff.format pc ++ " | " ++
          SymOff.format a ++ " =0x" ++ hexStr val) ∧
    (∀ pc a val sz, renderOp (Operation.write pc a val sz)
        = "\x1b[0;31mWRITE" ++ toString sz ++ "\x1b[0m @ " ++ SymOff.format pc ++ " | " ++
          SymOff.format a ++ " =0x" ++ hexStr val) ∧
    (∀ s : SymOff, s.addr < u64Bound →
      ∃ ds : List Char, ds.length = 16 ∧ (∀ c ∈ ds, IsHexDigitChar c) ∧
        SymOff.format s = "0x" ++ String.mk ds ++ " (" ++ s.symbol ++
          (if s.offset ≠ 0 then "+0x" ++ hexStr s.offset ++ ")" else ")")) := by
  refine ⟨fun ops => ⟨by simp [Tracer.trace], fun i => ?_⟩,
    fun pc => rfl, fun pc a val sz => rfl, fun pc a val sz => rfl, format_spec⟩
  simp [Tracer.trace, List.getElem?_map]

/-- Witness for C9: a one-operation batch and a concrete resolved address. -/
theorem c9_witness :
    ((⟨4198400, "main", 16⟩ : SymOff).addr < u64Bound) ∧
      (∃ ds : List Char, ds.length = 16 ∧ (∀ c ∈ ds, IsHexDigitChar c) ∧
        SymOff.format ⟨4198400, "main", 16⟩ = "0x" ++ String.mk ds ++ " (" ++ "main" ++
          (if (16 : Nat) ≠ 0 then "+0x" ++ hexStr 16 ++ ")" else ")")) ∧
      (Tracer.trace [Operation.exec ⟨4198400, "main", 16⟩]).length = 1 :=
  ⟨by decide, c9_render.2.2.2.2 ⟨4198400, "main", 16⟩ (by decide),
    (c9_render.1 [Operation.exec ⟨4198400, "main", 16⟩]).1⟩

end CannoliTracer
